import Mathlib

/-!
Verification development for the mess-pi field-gateway daemon.

This file gives a shallow embedding, in Lean, of the parts of the Rust
source that the specification's claims are about:

* `src/cli/src/service/modbus/connection.rs` — destinations, read
  parameters, `simple_read_impl` and `parameterized_read`;
* `src/cli/src/service/modbus/worker.rs` — the worker task's request
  intake (`add_new_request`), its per-storage `read` algorithm and its
  `tune` step;
* `src/cli/src/modbus/register.rs` — byte-level register parsing
  (numeric and string kinds) on a little-endian host;
* `src/cli/src/process/push.rs` — the Push job's log/cursor logic.

Machine integers are modelled as `Nat`/`Int` with explicit truncation
where the Rust code truncates; asynchronous effects (sleeps, network
reads) are modelled by explicit action traces and outcome scripts.
-/

namespace MessPi

/-- One contiguous holding-register read `(address, quantity)`; embeds
`SimpleSpan` from `service/modbus/span.rs` (fields are `u16` on the Rust
side, modelled as `Nat`). -/
structure SimpleSpan where
  address : Nat
  quantity : Nat
deriving DecidableEq, Repr

/-- Read parameters of `connection.rs` (`Params { timeout, backoff,
retries }`); durations are modelled by their millisecond counts. -/
structure Params where
  timeout : Nat
  backoff : Nat
  retries : Nat
deriving DecidableEq, Repr

/-- Embeds `ReadError` of `connection.rs`.  Each variant carries a
`std::io::Error`, modelled as an abstract numeric code.  In the source,
`Connection` is documented as "Failed connecting" and `Timeout` as
"Connection timed out". -/
inductive ReadError where
  | connection (e : Nat)
  | timeout (e : Nat)
deriving DecidableEq, Repr

/-- The raw outcome of one holding-register read attempt wrapped in
`futures_time`'s `.timeout(..)` combinator, as observed by
`simple_read_impl`:

* `ok data` — the read future completed within the deadline with a
  successful response;
* `ioError e` — the read future completed within the deadline but the
  modbus read itself failed with an I/O error `e` (the *inner* `Err`);
* `deadlineElapsed e` — the wall-clock deadline elapsed before the read
  future completed, so the `.timeout` wrapper itself returned `Err(e)`
  with `e` of kind `TimedOut` (the *outer* `Err`). -/
inductive RawOutcome where
  | ok (data : List Nat)
  | ioError (e : Nat)
  | deadlineElapsed (e : Nat)
deriving DecidableEq, Repr

/-- Embeds `Connection::simple_read_impl` (connection.rs lines 189-208).
The source matches on the result of
`read_holding_registers(..).timeout(timeout).await`:
the outer `Ok(timeout_response)` arm maps an inner `Err` to
`ReadError::Timeout`, and the outer `Err(connection_error)` arm maps to
`ReadError::Connection`.  Since the outer `Err` of `futures_time`'s
`.timeout` is produced exactly when the deadline elapses, the embedding
maps `deadlineElapsed` to `ReadError.connection` and `ioError` to
`ReadError.timeout`, exactly as the code does. -/
def simpleReadImpl : RawOutcome → Except ReadError (List Nat)
  | .ok data => .ok data
  | .ioError e => .error (.timeout e)
  | .deadlineElapsed e => .error (.connection e)

/-- True when an attempt outcome succeeds under `simpleReadImpl`. -/
def attemptOk (o : RawOutcome) : Bool :=
  match simpleReadImpl o with
  | .ok _ => true
  | .error _ => false

/-- The error an attempt outcome contributes (meaningful only for
failing outcomes; successes report an empty placeholder list). -/
def attemptErrs (o : RawOutcome) : List ReadError :=
  match simpleReadImpl o with
  | .ok _ => []
  | .error e => [e]

/-- Observable suspension actions of `parameterized_read`: a backoff
sleep of the given duration, or one read attempt for the given
`(address, quantity)` with the given wall-clock deadline. -/
inductive Action where
  | sleep (ms : Nat)
  | attempt (address quantity timeoutMs : Nat)
deriving DecidableEq, Repr

/-- The loop body of `Connection::parameterized_read` (connection.rs
lines 154-175) over a list of scripted attempt outcomes, one outcome
per attempt the loop would make.  Mirrors:
`while response.is_none() && retried != retries { sleep(backoff);
attempt; retried += 1 }`, accumulating one error per failed attempt and
stopping at the first success.  Returns the trace of actions performed
and the final `Result<Response, Vec<ReadError>>`. -/
def prGo (span : SimpleSpan) (params : Params) :
    List RawOutcome → List Action × Except (List ReadError) (List Nat)
  | [] => ([], .error [])
  | o :: rest =>
    let acts := [Action.sleep params.backoff,
                 Action.attempt span.address span.quantity params.timeout]
    match simpleReadImpl o with
    | .ok data => (acts, .ok data)
    | .error e =>
      let r := prGo span params rest
      (acts ++ r.1,
        match r.2 with
        | .ok data => .ok data
        | .error es => .error (e :: es))

/-- Embeds `Connection::parameterized_read`: the attempt loop runs over
the first `params.retries` entries of the outcome script (the script
gives, for each attempt index, what the environment would make that
attempt do). -/
def parameterizedRead (span : SimpleSpan) (params : Params)
    (script : Nat → RawOutcome) :
    List Action × Except (List ReadError) (List Nat) :=
  prGo span params ((List.range params.retries).map script)

/-- `Slave::min_device().0` from tokio_modbus: smallest device address. -/
def slaveMinDevice : Nat := 1

/-- `Slave::max_device().0` from tokio_modbus: largest device address. -/
def slaveMaxDevice : Nat := 247

/-- A modbus endpoint `(socket_address, optional slave id)`; embeds
`Destination` of connection.rs with the socket address abstracted to a
numeric key. -/
structure Destination where
  address : Nat
  slave : Option Nat
deriving DecidableEq, Repr

/-- Embeds `Destination::r#for` (connection.rs lines 18-32): the Rust
iterator `(Slave::min_device().0..Slave::max_device().0)` — an
*exclusive* range — mapped to slave destinations, chained with the one
standalone destination.  `List.range' a n` is `[a, a+1, …, a+n-1]`, so
this is exactly the slaves `min..max` (max excluded) then standalone. -/
def destinationFor (address : Nat) : List Destination :=
  ((List.range' slaveMinDevice (slaveMaxDevice - slaveMinDevice)).map
    (fun s => { address := address, slave := some s })) ++
    [{ address := address, slave := none }]

/-- Embeds the slave validity check of `Connection::connect_slave`
(connection.rs lines 75-93): the connect fails with `ConnectError::Slave`
iff `Slave(slave) < Slave::min_device() || Slave(slave) >
Slave::max_device()`; this is the accepting condition. -/
def connectSlaveAccepts (slave : Nat) : Bool :=
  decide (slaveMinDevice ≤ slave) && decide (slave ≤ slaveMaxDevice)

/-- Sleeping before an attempt and the attempt itself, the action block of
one loop iteration of `parameterized_read`. -/
def attemptBlock (span : SimpleSpan) (params : Params) : List Action :=
  [Action.sleep params.backoff,
   Action.attempt span.address span.quantity params.timeout]

theorem prGo_all_fail (span : SimpleSpan) (params : Params) :
    ∀ outs : List RawOutcome, (∀ o ∈ outs, attemptOk o = false) →
      ∃ es : List ReadError,
        prGo span params outs =
          ((List.replicate outs.length (attemptBlock span params)).flatten,
           .error es) ∧ es.length = outs.length := by
  intro outs
  induction outs with
  | nil => intro _; exact ⟨[], rfl, rfl⟩
  | cons o rest ih =>
    intro h
    have ho : attemptOk o = false := h o (List.mem_cons_self o rest)
    have hrest : ∀ x ∈ rest, attemptOk x = false :=
      fun x hx => h x (List.mem_cons_of_mem o hx)
    obtain ⟨es, heq, hlen⟩ := ih hrest
    unfold attemptOk at ho
    match hro : simpleReadImpl o with
    | .ok d => rw [hro] at ho; simp at ho
    | .error e =>
      refine ⟨e :: es, ?_, by simp [hlen]⟩
      simp only [prGo, hro, heq, List.length_cons, List.replicate_succ,
        List.flatten_cons, attemptBlock]

theorem prGo_first_success (span : SimpleSpan) (params : Params) (d : List Nat) :
    ∀ (pre : List RawOutcome) (o : RawOutcome) (rest : List RawOutcome),
      (∀ x ∈ pre, attemptOk x = false) → simpleReadImpl o = .ok d →
      prGo span params (pre ++ o :: rest) =
        ((List.replicate (pre.length + 1) (attemptBlock span params)).flatten,
         .ok d) := by
  intro pre
  induction pre with
  | nil =>
    intro o rest _ ho
    simp only [List.nil_append, prGo, ho, List.length_nil, List.replicate_succ,
      List.replicate_zero, List.flatten_cons, List.flatten_nil,
      List.append_nil, attemptBlock]
  | cons x pre ih =>
    intro o rest h ho
    have hx : attemptOk x = false := h x (List.mem_cons_self x pre)
    have hpre : ∀ y ∈ pre, attemptOk y = false :=
      fun y hy => h y (List.mem_cons_of_mem x hy)
    unfold attemptOk at hx
    match hrx : simpleReadImpl x with
    | .ok d2 => rw [hrx] at hx; simp at hx
    | .error e =>
      rw [List.cons_append]
      simp only [prGo, hrx, ih o rest hpre ho, List.length_cons,
        List.replicate_succ, List.flatten_cons, List.append_assoc,
        List.nil_append, attemptBlock]

theorem prGo_acts_shape (span : SimpleSpan) (params : Params) :
    ∀ outs : List RawOutcome, ∃ k, k ≤ outs.length ∧
      (prGo span params outs).1 =
        (List.replicate k (attemptBlock span params)).flatten := by
  intro outs
  induction outs with
  | nil => exact ⟨0, Nat.le_refl 0, rfl⟩
  | cons o rest ih =>
    obtain ⟨k, hk, hacts⟩ := ih
    match hro : simpleReadImpl o with
    | .ok d =>
      refine ⟨1, by simp, ?_⟩
      simp only [prGo, hro, List.replicate_succ, List.replicate_zero,
        List.flatten_cons, List.flatten_nil, List.append_nil, attemptBlock]
    | .error e =>
      refine ⟨k + 1, by simp [Nat.succ_le_succ hk], ?_⟩
      simp only [prGo, hro, hacts, List.replicate_succ, List.flatten_cons,
        attemptBlock]

/-- Claim C4: for every span and params, `Connection::parameterized_read`
performs at most `params.retries` attempts, sleeps `params.backoff`
before every attempt (including the first), stops at the first
successful attempt returning its response, and when every attempt fails
it returns an error list containing exactly one error per attempt
(length equal to `params.retries`). -/
theorem c4_parameterized_read_attempts (span : SimpleSpan) (params : Params)
    (script : Nat → RawOutcome) :
    (∃ k, k ≤ params.retries ∧
      (parameterizedRead span params script).1 =
        (List.replicate k (attemptBlock span params)).flatten) ∧
    ((∀ i, i < params.retries → attemptOk (script i) = false) →
      ∃ es, (parameterizedRead span params script).2 = .error es ∧
        es.length = params.retries) ∧
    (∀ k d, k < params.retries → simpleReadImpl (script k) = .ok d →
      (∀ i, i < k → attemptOk (script i) = false) →
      parameterizedRead span params script =
        ((List.replicate (k + 1) (attemptBlock span params)).flatten,
         .ok d)) := by
  refine ⟨?_, ?_, ?_⟩
  · obtain ⟨k, hk, hacts⟩ :=
      prGo_acts_shape span params ((List.range params.retries).map script)
    exact ⟨k, by simpa using hk, hacts⟩
  · intro hfail
    have hmem : ∀ o ∈ (List.range params.retries).map script,
        attemptOk o = false := by
      intro o hm
      obtain ⟨i, hi, rfl⟩ := List.mem_map.mp hm
      exact hfail i (List.mem_range.mp hi)
    obtain ⟨es, heq, hlen⟩ :=
      prGo_all_fail span params ((List.range params.retries).map script) hmem
    refine ⟨es, ?_, by simpa using hlen⟩
    unfold parameterizedRead
    rw [heq]
  · intro k d hk hsk hfail
    have hsplit : (List.range params.retries).map script =
        ((List.range k).map script) ++ script k ::
          (((List.range (params.retries - (k+1))).map ((k+1) + ·)).map script) := by
      have h1 : params.retries = (k + 1) + (params.retries - (k + 1)) := by omega
      rw [h1, List.range_add, List.range_succ]
      simp [List.map_append]
    have hpre : ∀ x ∈ (List.range k).map script, attemptOk x = false := by
      intro x hx
      obtain ⟨i, hi, rfl⟩ := List.mem_map.mp hx
      exact hfail i (List.mem_range.mp hi)
    unfold parameterizedRead
    rw [hsplit, prGo_first_success span params d _ _ _ hpre hsk]
    simp

/-- Witness for claim C4 at concrete inputs: with three scripted
deadline-elapsed attempts all three fail and three errors come back;
with a success scripted at attempt index 1, the read stops after two
sleep-attempt blocks and returns the response. -/
theorem c4_parameterized_read_attempts_witness :
    (∃ es, (parameterizedRead ⟨0, 1⟩ ⟨50, 10, 3⟩
        (fun _ => RawOutcome.deadlineElapsed 3)).2 = .error es ∧
        es.length = 3) ∧
    parameterizedRead ⟨0, 1⟩ ⟨50, 10, 3⟩
        (fun i => if i = 1 then .ok [5] else .deadlineElapsed 3) =
      ((List.replicate 2 (attemptBlock ⟨0, 1⟩ ⟨50, 10, 3⟩)).flatten,
       .ok [5]) :=
  ⟨(c4_parameterized_read_attempts ⟨0, 1⟩ ⟨50, 10, 3⟩ _).2.1 (by decide),
   (c4_parameterized_read_attempts ⟨0, 1⟩ ⟨50, 10, 3⟩ _).2.2 1 [5]
     (by decide) (by rfl) (by decide)⟩

/-- Claim C1 (evaluation at the failing input): `simple_read_impl` maps
an elapsed wall-clock deadline (the outer `Err` of futures_time's
`.timeout`) to `ReadError::Connection`, and a modbus I/O failure (the
inner `Err`) to `ReadError::Timeout` — the reverse of the claim; in
particular, against a peer that never responds within the deadline,
`parameterized_read` with `retries = 3` returns three `Connection`
errors and no `Timeout` error at all. -/
theorem c1_deadline_mislabelled_connection :
    simpleReadImpl (.deadlineElapsed 0) = .error (.connection 0) ∧
    simpleReadImpl (.ioError 0) = .error (.timeout 0) ∧
    (parameterizedRead ⟨0, 1⟩ ⟨50, 10, 3⟩ (fun _ => .deadlineElapsed 0)).2 =
      .error [.connection 0, .connection 0, .connection 0] ∧
    (∀ k, ReadError.timeout k ∉
      ([.connection 0, .connection 0, .connection 0] : List ReadError)) := by
  refine ⟨rfl, rfl, rfl, ?_⟩
  intro k
  simp

/-- Claim C10: for every span, if `params.retries` is zero then
`parameterized_read` performs no read attempt and no backoff sleep
(empty action trace) and returns `Err` with an empty error list. -/
theorem c10_zero_retries_no_attempts (span : SimpleSpan)
    (timeoutMs backoffMs : Nat) (script : Nat → RawOutcome) :
    parameterizedRead span ⟨timeoutMs, backoffMs, 0⟩ script =
      ([], .error []) := rfl

/-- Claim C7 (evaluation at the failing input): `Destination::r#for`
yields 247 candidate destinations per socket — the slaves of the
*exclusive* range `1..247` (that is, `1..=246`) plus the standalone —
not 248; the destination with slave id 247 is never enumerated even
though `connect_slave` accepts slave id 247 as valid. -/
theorem c7_destination_enumeration_misses_247 (address : Nat) :
    (destinationFor address).length = 247 ∧
    (∀ s, (⟨address, some s⟩ : Destination) ∈ destinationFor address ↔
      1 ≤ s ∧ s ≤ 246) ∧
    ((⟨address, none⟩ : Destination) ∈ destinationFor address) ∧
    ((⟨address, some 247⟩ : Destination) ∉ destinationFor address) ∧
    connectSlaveAccepts 247 = true := by
  refine ⟨?_, ?_, ?_, ?_, by decide⟩
  · simp [destinationFor, slaveMinDevice, slaveMaxDevice]
  · intro s
    simp [destinationFor, List.mem_range'_1, Destination.mk.injEq,
      slaveMinDevice, slaveMaxDevice]
    omega
  · simp [destinationFor]
  · simp [destinationFor, List.mem_range'_1, Destination.mk.injEq,
      slaveMinDevice, slaveMaxDevice]

/-- The worker's per-loop `Metrics`: a map destination → accumulated
read errors (worker.rs `struct Metrics`), modelled as an association
list (the HashMap's iteration order plays no role in the claims). -/
abbrev Metrics := List (Destination × List ReadError)

/-- The metrics update performed by `Task::read` on a failed span:
`metrics.errors.entry(destination).or_insert_with(Vec::new).append(&mut
errors)` — append to the existing entry, or create the entry. -/
def metricsAppend : Metrics → Destination → List ReadError → Metrics
  | [], d, es => [(d, es)]
  | (d', es') :: rest, d, es =>
    if d' = d then (d', es' ++ es) :: rest
    else (d', es') :: metricsAppend rest d es

/-- Embeds `RequestKind` of worker.rs. -/
inductive RequestKind where
  | oneshot
  | stream
deriving DecidableEq, Repr

/-- Embeds `Carrier` of worker.rs (the reply sender is omitted: the
claims settled here concern routing and storage shape only). -/
structure Carrier where
  destination : Destination
  spans : List SimpleSpan
  kind : RequestKind
deriving DecidableEq, Repr

/-- Embeds `Storage` of worker.rs; the Rust field `partial` (per-span
completion map) is named `slots` here, and the reply sender is omitted.
The random v4 uuid is modelled as a `Nat` drawn from a fresh counter. -/
structure Storage where
  id : Nat
  destination : Destination
  spans : List SimpleSpan
  slots : List (Option (List Nat))
deriving DecidableEq, Repr

/-- The state of the worker `Task` (worker.rs): the oneshot and stream
storage lists, current read params, termination flag; `nextId` is the
fresh-uuid source.  The connections map and receiver are omitted (no
claim here depends on them). -/
structure TaskState where
  oneshots : List Storage
  streams : List Storage
  params : Params
  terminate : Bool
  nextId : Nat
deriving DecidableEq, Repr

/-- Embeds `Task::add_new_request` (worker.rs lines 366-386): a Carrier
becomes a Storage with a freshly generated id and an all-`None` partial
vector of length `spans.len()`; the source then matches on `kind` and
pushes to `self.oneshots` in *both* arms (`RequestKind::Stream =>
self.oneshots.push(storage)`), which the embedding reproduces. -/
def addNewRequest (t : TaskState) (c : Carrier) : TaskState :=
  let storage : Storage :=
    { id := t.nextId, destination := c.destination, spans := c.spans,
      slots := List.replicate c.spans.length none }
  match c.kind with
  | .oneshot =>
    { t with oneshots := t.oneshots ++ [storage], nextId := t.nextId + 1 }
  | .stream =>
    { t with oneshots := t.oneshots ++ [storage], nextId := t.nextId + 1 }

/-- Embeds `Task::tune` (worker.rs lines 481-485): the body is
`dbg!(metrics);` — debug logging only; no field of the task is
assigned. -/
def tune (t : TaskState) (_metrics : Metrics) : TaskState := t

/-- Claim C2 (evaluation at the failing input): for every task state and
Carrier, `add_new_request` appends a Storage with a fresh id and an
all-`None` partial vector of length `spans.len()` to the *oneshots*
list and never touches the streams list — in particular a Carrier of
kind Stream lands in `oneshots`, contradicting routing by `kind`. -/
theorem c2_stream_carrier_pushed_to_oneshots :
    (∀ (t : TaskState) (c : Carrier),
      (addNewRequest t c).streams = t.streams ∧
      (addNewRequest t c).oneshots = t.oneshots ++
        [⟨t.nextId, c.destination, c.spans,
          List.replicate c.spans.length none⟩]) ∧
    (addNewRequest ⟨[], [], ⟨50, 10, 3⟩, false, 7⟩
        ⟨⟨1, some 2⟩, [⟨0, 2⟩, ⟨5, 1⟩], .stream⟩).oneshots =
      [⟨7, ⟨1, some 2⟩, [⟨0, 2⟩, ⟨5, 1⟩], [none, none]⟩] ∧
    (addNewRequest ⟨[], [], ⟨50, 10, 3⟩, false, 7⟩
        ⟨⟨1, some 2⟩, [⟨0, 2⟩, ⟨5, 1⟩], .stream⟩).streams = [] := by
  refine ⟨?_, rfl, rfl⟩
  intro t c
  obtain ⟨d, sp, k⟩ := c
  cases k <;> exact ⟨rfl, rfl⟩

/-- Claim C9: for every Metrics value, `Task::tune` leaves the worker's
state unchanged — in particular `self.params` after `tune` equals its
value before, so read parameters are constant for the task's lifetime
and no adaptive adjustment occurs. -/
theorem c9_tune_leaves_state_unchanged (t : TaskState) (m : Metrics) :
    tune t m = t ∧ (tune t m).params = t.params := ⟨rfl, rfl⟩

/-- The error payload of a failed `parameterized_read` outcome. -/
def errList : Except (List ReadError) (List Nat) → List ReadError
  | .ok _ => []
  | .error es => es

/-- Whether a `parameterized_read` outcome is a success. -/
def netOk : Except (List ReadError) (List Nat) → Bool
  | .ok _ => true
  | .error _ => false

/-- The span loop of `Task::read` (worker.rs lines 422-465) over the
zipped `(span, partial_slot)` pairs.  `net j` is the outcome the
environment gives the `connection.parameterized_read(spans[j], params)`
call, issued only when slot `j` is `None`.  Returns the rebuilt partial
vector, the updated metrics (errors of failed spans appended under the
storage's destination, in span order), and the list of span indices for
which a network read was issued. -/
def taskReadGo (dest : Destination)
    (net : Nat → Except (List ReadError) (List Nat)) :
    Nat → List (SimpleSpan × Option (List Nat)) → Metrics →
    List (Option (List Nat)) × Metrics × List Nat
  | _, [], m => ([], m, [])
  | i, (_, some r) :: rest, m =>
    let t := taskReadGo dest net (i + 1) rest m
    (some r :: t.1, t.2.1, t.2.2)
  | i, (_, none) :: rest, m =>
    match net i with
    | .ok r =>
      let t := taskReadGo dest net (i + 1) rest m
      (some r :: t.1, t.2.1, i :: t.2.2)
    | .error es =>
      let t := taskReadGo dest net (i + 1) rest (metricsAppend m dest es)
      (none :: t.1, t.2.1, i :: t.2.2)

/-- Embeds `Task::read`: run the span loop, then return
`Either::Right(responses)` when every slot is `Some` (in span order,
via `filter_map(identity)`) and `Either::Left(partial)` otherwise
(`Sum.inr`/`Sum.inl` here), alongside metrics and issued reads. -/
def taskRead (dest : Destination)
    (net : Nat → Except (List ReadError) (List Nat))
    (spans : List SimpleSpan) (slots : List (Option (List Nat)))
    (m : Metrics) :
    (List (Option (List Nat)) ⊕ List (List Nat)) × Metrics × List Nat :=
  let t := taskReadGo dest net 0 (spans.zip slots) m
  (if t.1.all Option.isSome then Sum.inr (t.1.filterMap id) else Sum.inl t.1,
   t.2.1, t.2.2)

/-- Characterization of the span loop of `Task::read`, proved once over
an arbitrary starting index: length preservation, a lower bound on
issued indices, reuse of `Some` slots (no read issued), the fill/leave
behaviour of `None` slots, and the metrics fold over failed reads. -/
theorem taskReadGo_spec (dest : Destination)
    (net : Nat → Except (List ReadError) (List Nat)) :
    ∀ (ps : List (SimpleSpan × Option (List Nat))) (i : Nat) (m : Metrics),
      (taskReadGo dest net i ps m).1.length = ps.length ∧
      (∀ k ∈ (taskReadGo dest net i ps m).2.2, i ≤ k) ∧
      (∀ j s r, ps[j]? = some (s, some r) →
        (taskReadGo dest net i ps m).1[j]? = some (some r) ∧
        (i + j) ∉ (taskReadGo dest net i ps m).2.2) ∧
      (∀ j s, ps[j]? = some (s, none) →
        (i + j) ∈ (taskReadGo dest net i ps m).2.2 ∧
        (∀ r, net (i + j) = .ok r →
          (taskReadGo dest net i ps m).1[j]? = some (some r)) ∧
        (∀ es, net (i + j) = .error es →
          (taskReadGo dest net i ps m).1[j]? = some none)) ∧
      ((taskReadGo dest net i ps m).2.1 =
        ((taskReadGo dest net i ps m).2.2.filter
          (fun k => !netOk (net k))).foldl
          (fun acc k => metricsAppend acc dest (errList (net k))) m) := by
  intro ps
  induction ps with
  | nil =>
    intro i m
    refine ⟨rfl, ?_, ?_, ?_, rfl⟩
    · intro k hk; simp [taskReadGo] at hk
    · intro j s r h; simp at h
    · intro j s h; simp at h
  | cons p rest ih =>
    intro i m
    obtain ⟨s0, oSlot⟩ := p
    match oSlot with
    | some r0 =>
      obtain ⟨ihLen, ihLb, ihSome, ihNone, ihM⟩ := ih (i + 1) m
      refine ⟨?_, ?_, ?_, ?_, ?_⟩
      · simp [taskReadGo, ihLen]
      · intro k hk
        simp only [taskReadGo] at hk
        exact Nat.le_of_succ_le (ihLb k hk)
      · intro j s r h
        cases j with
        | zero =>
          simp only [List.getElem?_cons_zero, Option.some.injEq,
            Prod.mk.injEq] at h
          obtain ⟨hs, hr⟩ := h
          constructor
          · simp [taskReadGo, hr]
          · intro hmem
            simp only [taskReadGo, Nat.add_zero] at hmem
            exact absurd (ihLb _ hmem) (by omega)
        | succ j =>
          simp only [List.getElem?_cons_succ] at h
          obtain ⟨h1, h2⟩ := ihSome j s r h
          have hidx : i + (j + 1) = i + 1 + j := by omega
          constructor
          · simp only [taskReadGo, List.getElem?_cons_succ]
            exact h1
          · intro hmem
            simp only [taskReadGo] at hmem
            rw [hidx] at hmem
            exact h2 hmem
      · intro j s h
        cases j with
        | zero => simp at h
        | succ j =>
          simp only [List.getElem?_cons_succ] at h
          obtain ⟨h1, h2, h3⟩ := ihNone j s h
          have hidx : i + (j + 1) = i + 1 + j := by omega
          refine ⟨?_, ?_, ?_⟩
          · simp only [taskReadGo]
            rw [hidx]
            exact h1
          · intro r hr
            rw [hidx] at hr
            simp only [taskReadGo, List.getElem?_cons_succ]
            exact h2 r hr
          · intro es hes
            rw [hidx] at hes
            simp only [taskReadGo, List.getElem?_cons_succ]
            exact h3 es hes
      · simp only [taskReadGo]
        exact ihM
    | none =>
      match hni : net i with
      | .ok r0 =>
        obtain ⟨ihLen, ihLb, ihSome, ihNone, ihM⟩ := ih (i + 1) m
        refine ⟨?_, ?_, ?_, ?_, ?_⟩
        · simp [taskReadGo, hni, ihLen]
        · intro k hk
          simp only [taskReadGo, hni, List.mem_cons] at hk
          rcases hk with rfl | hk
          · exact Nat.le_refl k
          · exact Nat.le_of_succ_le (ihLb k hk)
        · intro j s r h
          cases j with
          | zero => simp at h
          | succ j =>
            simp only [List.getElem?_cons_succ] at h
            obtain ⟨h1, h2⟩ := ihSome j s r h
            have hidx : i + (j + 1) = i + 1 + j := by omega
            constructor
            · simp only [taskReadGo, hni, List.getElem?_cons_succ]
              exact h1
            · intro hmem
              simp only [taskReadGo, hni, List.mem_cons] at hmem
              rcases hmem with heq | hmem
              · omega
              · rw [hidx] at hmem
                exact h2 hmem
        · intro j s h
          cases j with
          | zero =>
            refine ⟨by simp [taskReadGo, hni], ?_, ?_⟩
            · intro r hr
              rw [Nat.add_zero, hni] at hr
              simp only [Except.ok.injEq] at hr
              simp [taskReadGo, hni, hr]
            · intro es hes
              rw [Nat.add_zero, hni] at hes
              simp at hes
          | succ j =>
            simp only [List.getElem?_cons_succ] at h
            obtain ⟨h1, h2, h3⟩ := ihNone j s h
            have hidx : i + (j + 1) = i + 1 + j := by omega
            refine ⟨?_, ?_, ?_⟩
            · simp only [taskReadGo, hni, List.mem_cons]
              refine Or.inr ?_
              rw [hidx]
              exact h1
            · intro r hr
              rw [hidx] at hr
              simp only [taskReadGo, hni, List.getElem?_cons_succ]
              exact h2 r hr
            · intro es hes
              rw [hidx] at hes
              simp only [taskReadGo, hni, List.getElem?_cons_succ]
              exact h3 es hes
        · simp only [taskReadGo, hni, List.filter_cons, netOk, Bool.not_true,
            Bool.false_eq_true, if_false]
          exact ihM
      | .error es0 =>
        obtain ⟨ihLen, ihLb, ihSome, ihNone, ihM⟩ :=
          ih (i + 1) (metricsAppend m dest es0)
        refine ⟨?_, ?_, ?_, ?_, ?_⟩
        · simp [taskReadGo, hni, ihLen]
        · intro k hk
          simp only [taskReadGo, hni, List.mem_cons] at hk
          rcases hk with rfl | hk
          · exact Nat.le_refl k
          · exact Nat.le_of_succ_le (ihLb k hk)
        · intro j s r h
          cases j with
          | zero => simp at h
          | succ j =>
            simp only [List.getElem?_cons_succ] at h
            obtain ⟨h1, h2⟩ := ihSome j s r h
            have hidx : i + (j + 1) = i + 1 + j := by omega
            constructor
            · simp only [taskReadGo, hni, List.getElem?_cons_succ]
              exact h1
            · intro hmem
              simp only [taskReadGo, hni, List.mem_cons] at hmem
              rcases hmem with heq | hmem
              · omega
              · rw [hidx] at hmem
                exact h2 hmem
        · intro j s h
          cases j with
          | zero =>
            refine ⟨by simp [taskReadGo, hni], ?_, ?_⟩
            · intro r hr
              rw [Nat.add_zero, hni] at hr
              simp at hr
            · intro es hes
              simp [taskReadGo, hni]
          | succ j =>
            simp only [List.getElem?_cons_succ] at h
            obtain ⟨h1, h2, h3⟩ := ihNone j s h
            have hidx : i + (j + 1) = i + 1 + j := by omega
            refine ⟨?_, ?_, ?_⟩
            · simp only [taskReadGo, hni, List.mem_cons]
              refine Or.inr ?_
              rw [hidx]
              exact h1
            · intro r hr
              rw [hidx] at hr
              simp only [taskReadGo, hni, List.getElem?_cons_succ]
              exact h2 r hr
            · intro es hes
              rw [hidx] at hes
              simp only [taskReadGo, hni, List.getElem?_cons_succ]
              exact h3 es hes
        · simp only [taskReadGo, hni, List.filter_cons, netOk, errList,
            Bool.not_false, if_true, List.foldl_cons]
          exact ihM

/-- Claim C3: for every Storage (spans and partial vector of equal
length) and every call to the worker's read: a span whose slot is
`Some` is reused and no network read is issued for it; a span whose
slot is `None` gets a read, a success filling the slot and a failure
leaving it `None` while that destination's errors are appended to the
Metrics (in span order); the call returns Right with the responses in
span order if and only if every slot is `Some` afterwards, and
otherwise returns Left with the updated partial vector whose length
still equals `spans.len()`. -/
theorem c3_worker_read_partial_resumption (dest : Destination)
    (net : Nat → Except (List ReadError) (List Nat))
    (spans : List SimpleSpan) (slots : List (Option (List Nat)))
    (m : Metrics) (h : slots.length = spans.length) :
    (taskReadGo dest net 0 (spans.zip slots) m).1.length = spans.length ∧
    (∀ j r, slots[j]? = some (some r) →
      (taskReadGo dest net 0 (spans.zip slots) m).1[j]? = some (some r) ∧
      j ∉ (taskReadGo dest net 0 (spans.zip slots) m).2.2) ∧
    (∀ j, slots[j]? = some none →
      j ∈ (taskReadGo dest net 0 (spans.zip slots) m).2.2 ∧
      (∀ r, net j = .ok r →
        (taskReadGo dest net 0 (spans.zip slots) m).1[j]? = some (some r)) ∧
      (∀ es, net j = .error es →
        (taskReadGo dest net 0 (spans.zip slots) m).1[j]? = some none)) ∧
    ((taskReadGo dest net 0 (spans.zip slots) m).2.1 =
      ((taskReadGo dest net 0 (spans.zip slots) m).2.2.filter
        (fun k => !netOk (net k))).foldl
        (fun acc k => metricsAppend acc dest (errList (net k))) m) ∧
    (taskRead dest net spans slots m =
      (if (taskReadGo dest net 0 (spans.zip slots) m).1.all Option.isSome
       then Sum.inr
         ((taskReadGo dest net 0 (spans.zip slots) m).1.filterMap id)
       else Sum.inl (taskReadGo dest net 0 (spans.zip slots) m).1,
       (taskReadGo dest net 0 (spans.zip slots) m).2.1,
       (taskReadGo dest net 0 (spans.zip slots) m).2.2)) := by
  obtain ⟨hLen, hLb, hSome, hNone, hM⟩ :=
    taskReadGo_spec dest net (spans.zip slots) 0 m
  refine ⟨?_, ?_, ?_, hM, rfl⟩
  · rw [hLen, List.length_zip, h, Nat.min_self]
  · intro j r hslot
    have hj : j < spans.length := by
      have := (List.getElem?_eq_some.mp hslot).1
      omega
    have hs : spans[j]? = some spans[j] := List.getElem?_eq_getElem hj
    have hzip : (spans.zip slots)[j]? = some (spans[j], some r) :=
      List.getElem?_zip_eq_some.mpr ⟨hs, hslot⟩
    have := hSome j spans[j] r hzip
    simpa using this
  · intro j hslot
    have hj : j < spans.length := by
      have := (List.getElem?_eq_some.mp hslot).1
      omega
    have hs : spans[j]? = some spans[j] := List.getElem?_eq_getElem hj
    have hzip : (spans.zip slots)[j]? = some (spans[j], none) :=
      List.getElem?_zip_eq_some.mpr ⟨hs, hslot⟩
    have := hNone j spans[j] hzip
    simpa using this

/-- Witness for claim C3 at a concrete input: two spans, the first slot
pre-populated with `[7]`, the second `None` and failing; the rebuilt
vector keeps both slots as expected and a read is issued only for index
1. -/
theorem c3_worker_read_partial_resumption_witness :
    (taskReadGo ⟨0, none⟩
      (fun j => if j = 1 then Except.error [ReadError.timeout 1]
                else Except.ok [9]) 0
      ([⟨0, 1⟩, ⟨2, 2⟩].zip [some [7], none]) []).1.length = 2 ∧
    (taskReadGo ⟨0, none⟩
      (fun j => if j = 1 then Except.error [ReadError.timeout 1]
                else Except.ok [9]) 0
      ([⟨0, 1⟩, ⟨2, 2⟩].zip [some [7], none]) []).1[0]? = some (some [7]) ∧
    (1 : Nat) ∈ (taskReadGo ⟨0, none⟩
      (fun j => if j = 1 then Except.error [ReadError.timeout 1]
                else Except.ok [9]) 0
      ([⟨0, 1⟩, ⟨2, 2⟩].zip [some [7], none]) []).2.2 :=
  ⟨(c3_worker_read_partial_resumption ⟨0, none⟩ _ [⟨0, 1⟩, ⟨2, 2⟩] [some [7], none] [] rfl).1,
   ((c3_worker_read_partial_resumption ⟨0, none⟩ _ [⟨0, 1⟩, ⟨2, 2⟩] [some [7], none] [] rfl).2.1
      0 [7] rfl).1,
   ((c3_worker_read_partial_resumption ⟨0, none⟩ _ [⟨0, 1⟩, ⟨2, 2⟩] [some [7], none] [] rfl).2.2.1
      1 rfl).1⟩


/-- Embeds `parse_numeric_bytes` (register.rs lines 346-359, the
little-endian host branch): the word sequence is reversed and each word
is emitted low byte (`value & 0xFF`) then high byte (`(value >> 8) as
u8`). -/
def parse_numeric_bytes (data : List Nat) : List Nat :=
  (data.reverse.map (fun v => [v % 256, v / 256 % 256])).flatten

/-- Models `u32::from_ne_bytes` on a little-endian host (least
significant byte first), composed with the `try_into().ok()?` slice
conversion that fails unless exactly 4 bytes are supplied. -/
def u32_from_ne_bytes (bytes : List Nat) : Option Nat :=
  match bytes with
  | [b0, b1, b2, b3] => some (b0 + b1 * 256 + b2 * 65536 + b3 * 16777216)
  | _ => none

/-- Models Rust's `f64::round`: round half away from zero. -/
def rustRound (q : ℚ) : ℤ := if 0 ≤ q then ⌊q + 1/2⌋ else ⌈q - 1/2⌉

/-- Models Rust's saturating float-to-`u32` `as` cast applied to an
already-rounded integral value. -/
def u32_as_cast (z : ℤ) : Nat :=
  if z < 0 then 0 else if z > 4294967295 then 4294967295 else z.toNat

/-- Embeds the `RegisterKind::U32` branch of `impl_parse_register`
(register.rs lines 241-243), i.e. the macro
`parse_integer_register_kind!(U32, u32, data, multiplier)` (lines
202-212) on a little-endian host: assemble bytes with
`parse_numeric_bytes`, read them back with `u32::from_ne_bytes`, then
apply `((value as f64) * multiplier).round() as u32` when a multiplier
is present.  The `f64` arithmetic is modelled in exact rationals; the
claims proved below only exercise products that `f64` represents and
rounds identically. -/
def parse_u32_register (multiplier : Option ℚ) (data : List Nat) :
    Option Nat :=
  match u32_from_ne_bytes (parse_numeric_bytes data) with
  | none => none
  | some value =>
    some (match multiplier with
      | some m => u32_as_cast (rustRound ((value : ℚ) * m))
      | none => value)

/-- Claim C5: on a little-endian host, parsing a two-word U32 response
`[w0, w1]` with no multiplier yields `w0 * 2^16 + w1`; with multiplier
`m` it yields `round((w0 * 2^16 + w1) * m)` cast back to `u32`; in
particular words `[0x0000, 0x03E8]` with multiplier `0.1` parse to
`100`. -/
theorem c5_u32_little_endian_parse (w0 w1 : Nat) (m : ℚ)
    (h0 : w0 < 65536) (h1 : w1 < 65536) :
    parse_u32_register none [w0, w1] = some (w0 * 65536 + w1) ∧
    parse_u32_register (some m) [w0, w1] =
      some (u32_as_cast (rustRound (((w0 * 65536 + w1 : Nat) : ℚ) * m))) ∧
    parse_u32_register (some (1/10)) [0x0000, 0x03E8] = some 100 := by
  have hval : u32_from_ne_bytes (parse_numeric_bytes [w0, w1]) =
      some (w0 * 65536 + w1) := by
    show u32_from_ne_bytes [w1 % 256, w1 / 256 % 256, w0 % 256, w0 / 256 % 256]
      = some (w0 * 65536 + w1)
    simp only [u32_from_ne_bytes, Option.some.injEq]
    omega
  refine ⟨?_, ?_, ?_⟩
  · simp [parse_u32_register, hval]
  · simp [parse_u32_register, hval]
  · norm_num [parse_u32_register, parse_numeric_bytes, u32_from_ne_bytes,
      rustRound, u32_as_cast]
    rfl

/-- Witness for claim C5 at a concrete input: words `[0, 1000]` parse
to `1000` without multiplier and to `100` with multiplier `1/10`. -/
theorem c5_u32_little_endian_parse_witness :
    parse_u32_register none [0, 1000] = some 1000 ∧
    parse_u32_register (some (1/10)) [0, 1000] = some 100 :=
  ⟨by
    have h := (c5_u32_little_endian_parse 0 1000 (1/10)
      (by decide) (by decide)).1
    simpa using h,
   (c5_u32_little_endian_parse 0 1000 (1/10) (by decide) (by decide)).2.2⟩

/-- Embeds `parse_string_bytes` (register.rs lines 370-377, the
little-endian host branch): each word is emitted high byte
(`(value >> 8) as u8`) then low byte (`value & 0xFF`), in word order. -/
def parse_string_bytes (data : List Nat) : List Nat :=
  (data.map (fun v => [v / 256 % 256, v % 256])).flatten

/-- A UTF-8 continuation byte, `0x80..=0xBF`. -/
def isUtf8Cont (b : Nat) : Bool := decide (0x80 ≤ b) && decide (b ≤ 0xBF)

/-- Lower bound for the second byte of a multi-byte UTF-8 sequence led
by `b0` (tightened for `0xE0`/`0xF0` to exclude overlong encodings). -/
def utf8SecondLo (b0 : Nat) : Nat :=
  if b0 = 0xE0 then 0xA0 else if b0 = 0xF0 then 0x90 else 0x80

/-- Upper bound for the second byte of a multi-byte UTF-8 sequence led
by `b0` (tightened for `0xED` to exclude surrogates and for `0xF4` to
cap at U+10FFFF). -/
def utf8SecondHi (b0 : Nat) : Nat :=
  if b0 = 0xED then 0x9F else if b0 = 0xF4 then 0x8F else 0xBF

/-- Models the UTF-8 validation performed by Rust's
`String::from_utf8` (RFC 3629: no overlongs, no surrogates, maximum
U+10FFFF), as a byte-at-a-time state machine: state `0` expects a lead
byte; state `k + 1` expects a byte in `lo..=hi` followed by `k` plain
continuation bytes. -/
def validUtf8From : Nat → Nat → Nat → List Nat → Bool
  | 0, _, _, [] => true
  | 0, _, _, b :: bs =>
    if b ≤ 0x7F then validUtf8From 0 0 0 bs
    else if b < 0xC2 then false
    else if b ≤ 0xDF then validUtf8From 1 0x80 0xBF bs
    else if b ≤ 0xEF then validUtf8From 2 (utf8SecondLo b) (utf8SecondHi b) bs
    else if b ≤ 0xF4 then validUtf8From 3 (utf8SecondLo b) (utf8SecondHi b) bs
    else false
  | _ + 1, _, _, [] => false
  | k + 1, lo, hi, b :: bs =>
    decide (lo ≤ b) && decide (b ≤ hi) && validUtf8From k 0x80 0xBF bs

/-- A byte list is valid UTF-8 when the state machine accepts it from
the lead-byte state. -/
def validUtf8 (bs : List Nat) : Bool := validUtf8From 0 0 0 bs

/-- State `0` of the validator ignores its range arguments. -/
theorem validUtf8From_state0 (lo hi : Nat) (bs : List Nat) :
    validUtf8From 0 lo hi bs = validUtf8From 0 0 0 bs := by
  cases bs <;> simp [validUtf8From]

/-- The UTF-8 byte-sequence grammar (RFC 3629), stated independently of
the validator: a valid byte list is a concatenation of one-byte ASCII
sequences, two-byte sequences led by `0xC2..=0xDF`, three-byte
sequences led by `0xE0..=0xEF`, and four-byte sequences led by
`0xF0..=0xF4`, with second-byte ranges excluding overlong encodings and
surrogates. -/
inductive ValidUtf8 : List Nat → Prop where
  | nil : ValidUtf8 []
  | one {b : Nat} {rest : List Nat} : b ≤ 0x7F → ValidUtf8 rest →
      ValidUtf8 (b :: rest)
  | two {b0 b1 : Nat} {rest : List Nat} : 0xC2 ≤ b0 → b0 ≤ 0xDF →
      isUtf8Cont b1 = true → ValidUtf8 rest → ValidUtf8 (b0 :: b1 :: rest)
  | three {b0 b1 b2 : Nat} {rest : List Nat} : 0xE0 ≤ b0 → b0 ≤ 0xEF →
      utf8SecondLo b0 ≤ b1 → b1 ≤ utf8SecondHi b0 → isUtf8Cont b2 = true →
      ValidUtf8 rest → ValidUtf8 (b0 :: b1 :: b2 :: rest)
  | four {b0 b1 b2 b3 : Nat} {rest : List Nat} : 0xF0 ≤ b0 → b0 ≤ 0xF4 →
      utf8SecondLo b0 ≤ b1 → b1 ≤ utf8SecondHi b0 → isUtf8Cont b2 = true →
      isUtf8Cont b3 = true → ValidUtf8 rest →
      ValidUtf8 (b0 :: b1 :: b2 :: b3 :: rest)

theorem validUtf8_complete :
    ∀ bs : List Nat, ValidUtf8 bs → validUtf8 bs = true := by
  intro bs h
  induction h with
  | nil => rfl
  | one hb _ ih =>
    unfold validUtf8 at ih ⊢
    simp only [validUtf8From]
    rw [if_pos hb]
    exact ih
  | two hlo hhi hc _ ih =>
    unfold validUtf8 at ih ⊢
    simp only [validUtf8From]
    rw [if_neg (by omega), if_neg (by omega), if_pos hhi]
    simp only [isUtf8Cont, Bool.and_eq_true, decide_eq_true_eq] at hc
    simp only [validUtf8From, validUtf8From_state0, Bool.and_eq_true,
      decide_eq_true_eq]
    exact ⟨⟨hc.1, hc.2⟩, ih⟩
  | three hlo hhi h1lo h1hi hc _ ih =>
    unfold validUtf8 at ih ⊢
    simp only [validUtf8From]
    rw [if_neg (by omega), if_neg (by omega), if_neg (by omega), if_pos hhi]
    simp only [isUtf8Cont, Bool.and_eq_true, decide_eq_true_eq] at hc
    simp only [validUtf8From, validUtf8From_state0, Bool.and_eq_true,
      decide_eq_true_eq]
    exact ⟨⟨h1lo, h1hi⟩, ⟨hc.1, hc.2⟩, ih⟩
  | four hlo hhi h1lo h1hi hc2 hc3 _ ih =>
    unfold validUtf8 at ih ⊢
    simp only [validUtf8From]
    rw [if_neg (by omega), if_neg (by omega), if_neg (by omega),
      if_neg (by omega), if_pos hhi]
    simp only [isUtf8Cont, Bool.and_eq_true, decide_eq_true_eq] at hc2 hc3
    simp only [validUtf8From, validUtf8From_state0, Bool.and_eq_true,
      decide_eq_true_eq]
    exact ⟨⟨h1lo, h1hi⟩, ⟨hc2.1, hc2.2⟩, ⟨hc3.1, hc3.2⟩, ih⟩

theorem validUtf8_sound_aux :
    ∀ n : Nat, ∀ bs : List Nat, bs.length ≤ n →
      validUtf8From 0 0 0 bs = true → ValidUtf8 bs := by
  intro n
  induction n with
  | zero =>
    intro bs hlen _
    have : bs = [] := List.length_eq_zero.mp (Nat.le_zero.mp hlen)
    subst this
    exact .nil
  | succ n ih =>
    intro bs hlen h
    match bs with
    | [] => exact .nil
    | b :: bs1 =>
      simp only [validUtf8From] at h
      by_cases h1 : b ≤ 0x7F
      · rw [if_pos h1] at h
        exact .one h1 (ih bs1 (by simpa using hlen) h)
      · rw [if_neg h1] at h
        by_cases h2 : b < 0xC2
        · rw [if_pos h2] at h
          simp at h
        · rw [if_neg h2] at h
          by_cases h3 : b ≤ 0xDF
          · rw [if_pos h3] at h
            match bs1 with
            | [] => simp [validUtf8From] at h
            | b1 :: bs2 =>
              simp only [validUtf8From, validUtf8From_state0,
                Bool.and_eq_true, decide_eq_true_eq] at h
              obtain ⟨⟨hb1lo, hb1hi⟩, hrest⟩ := h
              refine .two (by omega) h3 ?_
                (ih bs2 (by simp at hlen; omega) hrest)
              simp only [isUtf8Cont, Bool.and_eq_true, decide_eq_true_eq]
              exact ⟨hb1lo, hb1hi⟩
          · rw [if_neg h3] at h
            by_cases h4 : b ≤ 0xEF
            · rw [if_pos h4] at h
              match bs1 with
              | [] => simp [validUtf8From] at h
              | [b1] => simp [validUtf8From] at h
              | b1 :: b2 :: bs3 =>
                simp only [validUtf8From, validUtf8From_state0,
                  Bool.and_eq_true, decide_eq_true_eq] at h
                obtain ⟨⟨hb1lo, hb1hi⟩, ⟨hb2lo, hb2hi⟩, hrest⟩ := h
                refine .three (by omega) h4 hb1lo hb1hi ?_
                  (ih bs3 (by simp at hlen; omega) hrest)
                simp only [isUtf8Cont, Bool.and_eq_true, decide_eq_true_eq]
                exact ⟨hb2lo, hb2hi⟩
            · rw [if_neg h4] at h
              by_cases h5 : b ≤ 0xF4
              · rw [if_pos h5] at h
                match bs1 with
                | [] => simp [validUtf8From] at h
                | [b1] => simp [validUtf8From] at h
                | [b1, b2] => simp [validUtf8From] at h
                | b1 :: b2 :: b3 :: bs4 =>
                  simp only [validUtf8From, validUtf8From_state0,
                    Bool.and_eq_true, decide_eq_true_eq] at h
                  obtain ⟨⟨hb1lo, hb1hi⟩, ⟨hb2lo, hb2hi⟩, ⟨hb3lo, hb3hi⟩,
                    hrest⟩ := h
                  refine .four (by omega) h5 hb1lo hb1hi ?_ ?_
                    (ih bs4 (by simp at hlen; omega) hrest)
                  · simp only [isUtf8Cont, Bool.and_eq_true,
                      decide_eq_true_eq]
                    exact ⟨hb2lo, hb2hi⟩
                  · simp only [isUtf8Cont, Bool.and_eq_true,
                      decide_eq_true_eq]
                    exact ⟨hb3lo, hb3hi⟩
              · rw [if_neg h5] at h
                simp at h

/-- The executable validator agrees with the UTF-8 grammar. -/
theorem validUtf8_iff (bs : List Nat) :
    validUtf8 bs = true ↔ ValidUtf8 bs :=
  ⟨fun h => validUtf8_sound_aux bs.length bs (Nat.le_refl _) h,
   fun h => validUtf8_complete bs h⟩

/-- Models Rust's `String::from_utf8`: returns the byte content when it
is valid UTF-8 (a Rust `String` is represented by its UTF-8 bytes) and
fails otherwise. -/
def string_from_utf8 (bytes : List Nat) : Option (List Nat) :=
  if validUtf8 bytes then some bytes else none

/-- Embeds the `RegisterKind::String` branch of `impl_parse_register`
(register.rs lines 262-265) on a little-endian host: assemble bytes
with `parse_string_bytes`, then `String::from_utf8(bytes).ok()?` — a
decode failure makes the whole register parse yield no value. -/
def parse_string_register (data : List Nat) : Option (List Nat) :=
  string_from_utf8 (parse_string_bytes data)

theorem parse_string_bytes_cons (w : Nat) (ws : List Nat) :
    parse_string_bytes (w :: ws) =
      w / 256 % 256 :: w % 256 :: parse_string_bytes ws := by
  simp [parse_string_bytes]

/-- Claim C6: on a little-endian host, parsing a `String` register from
an n-word response assembles 2n bytes — each word's high byte followed
by its low byte, in word order — and yields `Some` of the string with
exactly those bytes when they are valid UTF-8, and no value when they
are not. -/
theorem c6_string_register_parse (ws : List Nat) :
    (parse_string_bytes ws).length = 2 * ws.length ∧
    (∀ j w, ws[j]? = some w →
      (parse_string_bytes ws)[2 * j]? = some (w / 256 % 256) ∧
      (parse_string_bytes ws)[2 * j + 1]? = some (w % 256)) ∧
    (ValidUtf8 (parse_string_bytes ws) →
      parse_string_register ws = some (parse_string_bytes ws)) ∧
    (¬ ValidUtf8 (parse_string_bytes ws) →
      parse_string_register ws = none) := by
  refine ⟨?_, ?_, ?_, ?_⟩
  · induction ws with
    | nil => rfl
    | cons w ws ih => rw [parse_string_bytes_cons]; simp [ih]; omega
  · induction ws with
    | nil => intro j w h; simp at h
    | cons w0 ws ih =>
      intro j w h
      cases j with
      | zero =>
        simp only [List.getElem?_cons_zero, Option.some.injEq] at h
        subst h
        rw [parse_string_bytes_cons]
        exact ⟨by simp, by simp⟩
      | succ j =>
        simp only [List.getElem?_cons_succ] at h
        obtain ⟨ih1, ih2⟩ := ih j w h
        rw [parse_string_bytes_cons]
        have e1 : 2 * (j + 1) = (2 * j) + 1 + 1 := by omega
        rw [e1]
        simp only [List.getElem?_cons_succ]
        exact ⟨ih1, ih2⟩
  · intro hv
    have := (validUtf8_iff (parse_string_bytes ws)).mpr hv
    simp [parse_string_register, string_from_utf8, this]
  · intro hv
    have : validUtf8 (parse_string_bytes ws) = false := by
      cases hb : validUtf8 (parse_string_bytes ws)
      · rfl
      · exact absurd ((validUtf8_iff _).mp hb) hv
    simp [parse_string_register, string_from_utf8, this]

/-- Witness for claim C6 at concrete inputs: words
`[0x4142, 0x4344, 0x4500, 0x0000]` parse to the eight bytes of
"ABCDE" followed by three NULs, and the single word `0xFFFF`
(assembled bytes `FF FF`, not valid UTF-8) parses to no value. -/
theorem c6_string_register_parse_witness :
    parse_string_register [0x4142, 0x4344, 0x4500, 0x0000] =
      some [0x41, 0x42, 0x43, 0x44, 0x45, 0x00, 0x00, 0x00] ∧
    parse_string_register [0xFFFF] = none :=
  ⟨by
    rw [(c6_string_register_parse [0x4142, 0x4344, 0x4500, 0x0000]).2.2.1
      ((validUtf8_iff _).mp (by decide))]
    rfl,
   (c6_string_register_parse [0xFFFF]).2.2.2
     (fun hv => absurd ((validUtf8_iff _).mpr hv) (by decide))⟩

/-- A persisted Push log row (push.rs builds `db::Log` with
`kind = LogKind::Push`): `last` is the highest measurement id of the
attempted batch, `success` is true when the log's status is
`LogStatus::Success` (cloud Ok with `success: true`) and false
otherwise (cloud Ok with `success: false`, or a connection error).
Timestamp, auto id and response text play no role in the claim and are
omitted; only Push-kind logs are modelled. -/
structure PLog where
  last : Int
  success : Bool
deriving DecidableEq, Repr

/-- The store state the Push job interacts with: measurement row ids in
insertion order and the Push log rows in insertion order. -/
structure PushState where
  measurements : List Int
  logs : List PLog
deriving DecidableEq, Repr

/-- Modelled from the spec: `get_last_successful_push_log` of the store
client (its implementation is not under src/) returns the most recent
log of kind Push with status Success — the last such row in insertion
order. -/
def lastSuccessfulPushLog (logs : List PLog) : Option PLog :=
  logs.foldl (fun acc l => if l.success then some l else acc) none

/-- Modelled from the spec: `get_measurements(from, limit)` fetches "up
to 1000 rows from the store with `id > last`"; rows are returned in
insertion order, which under the claim's monotonic-id assumption is
ascending id order. -/
def getMeasurements (ms : List Int) (fromId : Int) (limit : Nat) : List Int :=
  (ms.filter (fun id => decide (fromId < id))).take limit

/-- The id selected by
`measurements_to_push.iter().max_by(|x, y| x.id.cmp(&y.id))` in
push.rs: the maximum id of the batch, `none` on an empty batch. -/
def maxId : List Int → Option Int
  | [] => none
  | x :: xs => some (xs.foldl max x)

/-- The `last_pushed_id` computed at the top of `Process::execute`
(push.rs lines 19-23): the `last` of the most recent successful Push
log, or 0 if none. -/
def cursorOf (s : PushState) : Int :=
  match lastSuccessfulPushLog s.logs with
  | some log => log.last
  | none => 0

/-- The batch fetched by `Process::execute` (push.rs lines 25-29):
`get_measurements(last_pushed_id, 1000)`. -/
def batchOf (s : PushState) : List Int :=
  getMeasurements s.measurements (cursorOf s) 1000

/-- Embeds one execution of the Push job (push.rs lines 18-73):
compute the cursor, fetch the batch, return with no store write when
the batch is empty (`max_by` yields `None`), and otherwise insert a Log
row whose `last` is the maximum id of the batch and whose status
reflects the cloud outcome.  The cloud call itself is the environment;
`outcome` says whether it reported success. -/
def pushExecute (outcome : Bool) (s : PushState) : PushState :=
  match maxId (batchOf s) with
  | none => s
  | some lastPushId =>
    { s with logs := s.logs ++ [⟨lastPushId, outcome⟩] }

/-- The events the store sees across a run: a measurement row insert
(by the measure job) or one Push job execution with the given cloud
outcome. -/
inductive PushEvent where
  | insert (id : Int)
  | push (outcome : Bool)
deriving DecidableEq, Repr

/-- Apply one event to the store state. -/
def applyEvent (s : PushState) : PushEvent → PushState
  | .insert id => { s with measurements := s.measurements ++ [id] }
  | .push outcome => pushExecute outcome s

/-- Run a sequence of events. -/
def runEvents (s : PushState) (evs : List PushEvent) : PushState :=
  evs.foldl applyEvent s

/-- The claim's monotonic-id assumption for one insert: the new row id
is positive and greater than every id already stored. -/
def freshId (ms : List Int) (id : Int) : Bool :=
  decide (0 < id) && ms.all (fun m => decide (m < id))

/-- A trace is valid when every insert carries a fresh monotonic id. -/
def validEvents : PushState → List PushEvent → Bool
  | _, [] => true
  | s, .insert id :: evs =>
    freshId s.measurements id && validEvents (applyEvent s (.insert id)) evs
  | s, .push o :: evs => validEvents (applyEvent s (.push o)) evs

/-- The run invariant: persisted `last` values are non-decreasing in
insertion order, every logged `last` is a stored measurement id, and
the most recent log's `last` is at most the maximum of the current
batch (when that batch is nonempty). -/
def pushInv (s : PushState) : Prop :=
  List.Chain' (· ≤ ·) (s.logs.map (·.last)) ∧
  (∀ l ∈ s.logs, l.last ∈ s.measurements) ∧
  (∀ P, s.logs.getLast? = some P →
    batchOf s = [] ∨ ∃ mB, maxId (batchOf s) = some mB ∧ P.last ≤ mB)

theorem lastSuccess_gen :
    ∀ (logs : List PLog) (acc : Option PLog) (l : PLog),
      logs.foldl (fun acc x => if x.success then some x else acc) acc = some l →
      l ∈ logs ∨ acc = some l := by
  intro logs
  induction logs with
  | nil => intro acc l h; exact Or.inr h
  | cons x rest ih =>
    intro acc l h
    rcases ih _ l h with hm | hacc
    · exact Or.inl (List.mem_cons_of_mem x hm)
    · cases hxs : x.success with
      | true =>
        simp [hxs] at hacc
        refine Or.inl ?_
        rw [← hacc]
        exact List.mem_cons_self x rest
      | false =>
        simp [hxs] at hacc
        exact Or.inr hacc

theorem lastSuccess_mem (logs : List PLog) (l : PLog)
    (h : lastSuccessfulPushLog logs = some l) : l ∈ logs := by
  rcases lastSuccess_gen logs none l h with hm | hacc
  · exact hm
  · simp at hacc

theorem lastSuccess_append (logs : List PLog) (l : PLog) :
    lastSuccessfulPushLog (logs ++ [l]) =
      if l.success then some l else lastSuccessfulPushLog logs := by
  simp [lastSuccessfulPushLog, List.foldl_append]

theorem foldl_max_le_self (xs : List Int) : ∀ a : Int, a ≤ xs.foldl max a := by
  induction xs with
  | nil => intro a; exact le_refl a
  | cons y ys ih =>
    intro a
    calc a ≤ max a y := le_max_left a y
    _ ≤ ys.foldl max (max a y) := ih (max a y)

theorem foldl_max_le (xs : List Int) :
    ∀ (a x : Int), x ∈ xs → x ≤ xs.foldl max a := by
  induction xs with
  | nil => intro a x hx; simp at hx
  | cons y ys ih =>
    intro a x hx
    rcases List.mem_cons.mp hx with rfl | hx
    · calc x ≤ max a x := le_max_right a x
      _ ≤ ys.foldl max (max a x) := foldl_max_le_self ys (max a x)
    · exact ih (max a y) x hx

theorem foldl_max_mem (xs : List Int) :
    ∀ a : Int, xs.foldl max a = a ∨ xs.foldl max a ∈ xs := by
  induction xs with
  | nil => intro a; exact Or.inl rfl
  | cons y ys ih =>
    intro a
    rcases ih (max a y) with h | h
    · rcases max_choice a y with hm | hm
      · refine Or.inl ?_
        rw [List.foldl_cons, h, hm]
      · refine Or.inr ?_
        rw [List.foldl_cons, h, hm]
        exact List.mem_cons_self y ys
    · exact Or.inr (List.mem_cons_of_mem y h)

theorem maxId_mem (l : List Int) (m : Int) (h : maxId l = some m) : m ∈ l := by
  match l with
  | [] => simp [maxId] at h
  | x :: xs =>
    simp only [maxId, Option.some.injEq] at h
    subst h
    rcases foldl_max_mem xs x with h | h
    · rw [h]
      exact List.mem_cons_self x xs
    · exact List.mem_cons_of_mem x h

theorem le_maxId (l : List Int) (m x : Int) (h : maxId l = some m)
    (hx : x ∈ l) : x ≤ m := by
  match l with
  | [] => simp at hx
  | y :: ys =>
    simp only [maxId, Option.some.injEq] at h
    subst h
    rcases List.mem_cons.mp hx with rfl | hx
    · exact foldl_max_le_self ys x
    · exact foldl_max_le ys y x hx

theorem maxId_isSome (l : List Int) (h : l ≠ []) : ∃ m, maxId l = some m := by
  match l with
  | [] => exact absurd rfl h
  | x :: xs => exact ⟨xs.foldl max x, rfl⟩

theorem batch_mem (s : PushState) (x : Int) (hx : x ∈ batchOf s) :
    x ∈ s.measurements ∧ cursorOf s < x := by
  have h1 := List.mem_of_mem_take hx
  have h2 := List.mem_filter.mp h1
  exact ⟨h2.1, by simpa using h2.2⟩

theorem pushInv_insert (ms : List Int) (logs : List PLog) (id : Int)
    (hInv : pushInv ⟨ms, logs⟩) (hid0 : 0 < id)
    (hidAll : ∀ m ∈ ms, m < id) :
    pushInv ⟨ms ++ [id], logs⟩ := by
  obtain ⟨hChain, hMem, hLast⟩ := hInv
  have hcid : cursorOf ⟨ms, logs⟩ < id := by
    unfold cursorOf
    cases hls : lastSuccessfulPushLog logs with
    | none => exact hid0
    | some l => exact hidAll _ (hMem l (lastSuccess_mem _ _ hls))
  have hfil : (ms ++ [id]).filter (fun x => decide (cursorOf ⟨ms, logs⟩ < x)) =
      ms.filter (fun x => decide (cursorOf ⟨ms, logs⟩ < x)) ++ [id] := by
    rw [List.filter_append]
    simp [hcid]
  have hbatch : batchOf ⟨ms ++ [id], logs⟩ =
      (ms.filter (fun x => decide (cursorOf ⟨ms, logs⟩ < x)) ++ [id]).take
        1000 := by
    unfold batchOf getMeasurements
    exact congrArg (List.take 1000) hfil
  refine ⟨hChain, ?_, ?_⟩
  · intro l hl
    exact List.mem_append_left _ (hMem l hl)
  · intro P hP
    by_cases hlen :
        1000 ≤ (ms.filter (fun x => decide (cursorOf ⟨ms, logs⟩ < x))).length
    · have hb' : batchOf ⟨ms ++ [id], logs⟩ = batchOf ⟨ms, logs⟩ := by
        rw [hbatch, List.take_append_of_le_length hlen]
        rfl
      rw [hb']
      exact hLast P hP
    · push_neg at hlen
      have htake :
          ((ms.filter (fun x => decide (cursorOf ⟨ms, logs⟩ < x))) ++
            [id]).take 1000 =
          (ms.filter (fun x => decide (cursorOf ⟨ms, logs⟩ < x))) ++ [id] :=
        List.take_of_length_le (by simp; omega)
      refine Or.inr ?_
      rw [hbatch, htake]
      obtain ⟨m', hm'⟩ := maxId_isSome _
        (by simp :
          (ms.filter (fun x => decide (cursorOf ⟨ms, logs⟩ < x))) ++ [id] ≠ [])
      refine ⟨m', hm', ?_⟩
      have hPin : P.last ∈ ms := hMem P (List.mem_of_mem_getLast? hP)
      have hPid : P.last < id := hidAll _ hPin
      have hid_le : id ≤ m' := le_maxId _ _ _ hm' (by simp)
      omega

theorem pushInv_push (ms : List Int) (logs : List PLog) (o : Bool)
    (hInv : pushInv ⟨ms, logs⟩) :
    pushInv (pushExecute o ⟨ms, logs⟩) := by
  obtain ⟨hChain, hMem, hLast⟩ := hInv
  unfold pushExecute
  cases hmb : maxId (batchOf ⟨ms, logs⟩) with
  | none => exact ⟨hChain, hMem, hLast⟩
  | some mB =>
    have hmBmem : mB ∈ ms := (batch_mem _ mB (maxId_mem _ _ hmb)).1
    have hmBgt : cursorOf ⟨ms, logs⟩ < mB :=
      (batch_mem _ mB (maxId_mem _ _ hmb)).2
    refine ⟨?_, ?_, ?_⟩
    · show List.Chain' (· ≤ ·) ((logs ++ [(⟨mB, o⟩ : PLog)]).map (·.last))
      rw [List.map_append, List.chain'_append]
      refine ⟨hChain, List.chain'_singleton _, ?_⟩
      intro x hx y hy
      simp only [List.map_cons, List.map_nil, List.head?_cons,
        Option.mem_def, Option.some.injEq] at hy
      subst hy
      rw [List.getLast?_map] at hx
      cases hP : logs.getLast? with
      | none => rw [hP] at hx; simp at hx
      | some P =>
        rw [hP] at hx
        simp only [Option.map_some', Option.mem_def, Option.some.injEq] at hx
        subst hx
        rcases hLast P hP with hempty | ⟨mB', hmB', hle⟩
        · rw [hempty] at hmb
          simp [maxId] at hmb
        · rw [hmB'] at hmb
          simp only [Option.some.injEq] at hmb
          omega
    · intro l hl
      rcases List.mem_append.mp hl with h | h
      · exact hMem l h
      · simp only [List.mem_singleton] at h
        subst h
        exact hmBmem
    · intro P hP
      show batchOf ⟨ms, logs ++ [⟨mB, o⟩]⟩ = [] ∨ _
      rw [List.getLast?_concat] at hP
      simp only [Option.some.injEq] at hP
      subst hP
      have hcur' : cursorOf ⟨ms, logs ++ [⟨mB, o⟩]⟩ =
          if o then mB else cursorOf ⟨ms, logs⟩ := by
        unfold cursorOf
        rw [lastSuccess_append]
        cases o
        · simp
        · simp
      cases o with
      | true =>
        rw [if_pos rfl] at hcur'
        by_cases hbe : batchOf ⟨ms, logs ++ [⟨mB, true⟩]⟩ = []
        · exact Or.inl hbe
        · refine Or.inr ?_
          obtain ⟨m', hm'⟩ := maxId_isSome _ hbe
          refine ⟨m', hm', ?_⟩
          obtain ⟨x, hx⟩ := List.exists_mem_of_ne_nil _ hbe
          have hgt := (batch_mem _ x hx).2
          rw [hcur'] at hgt
          have hxle := le_maxId _ _ _ hm' hx
          show mB ≤ m'
          omega
      | false =>
        rw [if_neg (by simp)] at hcur'
        have hbsame : batchOf ⟨ms, logs ++ [⟨mB, false⟩]⟩ =
            batchOf ⟨ms, logs⟩ := by
          unfold batchOf getMeasurements
          rw [hcur']
        refine Or.inr ⟨mB, ?_, le_refl mB⟩
        rw [hbsame]
        exact hmb

theorem pushInv_run : ∀ (evs : List PushEvent) (s : PushState),
    pushInv s → validEvents s evs = true → pushInv (runEvents s evs) := by
  intro evs
  induction evs with
  | nil => intro s h _; exact h
  | cons ev rest ih =>
    intro s h hv
    match ev with
    | .insert id =>
      simp only [validEvents, Bool.and_eq_true] at hv
      obtain ⟨hf, hv'⟩ := hv
      simp only [freshId, Bool.and_eq_true, decide_eq_true_eq,
        List.all_eq_true] at hf
      have hInv' : pushInv (applyEvent s (.insert id)) := by
        obtain ⟨ms, logs⟩ := s
        exact pushInv_insert ms logs id h hf.1
          (fun m hm => by simpa using hf.2 m hm)
      exact ih _ hInv' hv'
    | .push o =>
      simp only [validEvents] at hv
      have hInv' : pushInv (applyEvent s (.push o)) := by
        obtain ⟨ms, logs⟩ := s
        exact pushInv_push ms logs o h
      exact ih _ hInv' hv

/-- Claim C8: each Push attempt fetches only rows with id greater than
the `last` of the most recent successful Push log (0 if none), writes
no log when the fetched batch is empty, and otherwise writes a log
whose `last` is the maximum id in the batch with status reflecting the
cloud outcome; consequently, assuming measurement ids are assigned
monotonically, over any sequence of Push executions the persisted
`last` fields form a non-decreasing sequence. -/
theorem c8_push_log_monotonic :
    (∀ (o : Bool) (s : PushState),
      (∀ x ∈ batchOf s, cursorOf s < x) ∧
      (batchOf s = [] → pushExecute o s = s) ∧
      (∀ mB, maxId (batchOf s) = some mB →
        (pushExecute o s).logs = s.logs ++ [⟨mB, o⟩] ∧
        (pushExecute o s).measurements = s.measurements)) ∧
    (∀ evs : List PushEvent, validEvents ⟨[], []⟩ evs = true →
      List.Chain' (· ≤ ·)
        ((runEvents ⟨[], []⟩ evs).logs.map (·.last))) := by
  constructor
  · intro o s
    refine ⟨fun x hx => (batch_mem s x hx).2, ?_, ?_⟩
    · intro hbe
      unfold pushExecute
      rw [hbe]
      rfl
    · intro mB hmB
      unfold pushExecute
      rw [hmB]
      exact ⟨rfl, rfl⟩
  · intro evs hv
    have hInv0 : pushInv ⟨[], []⟩ := ⟨List.chain'_nil, by simp, by simp⟩
    exact (pushInv_run evs ⟨[], []⟩ hInv0 hv).1

/-- Witness for claim C8 at concrete inputs: a successful push over
rows `[1, 2]` logs `last = 2`, and the trace insert 1, insert 2,
failed push, insert 3, successful push, successful push yields the
non-decreasing `last` sequence `[2, 3]`. -/
theorem c8_push_log_monotonic_witness :
    ((pushExecute true ⟨[1, 2], []⟩).logs = [] ++ [⟨2, true⟩]) ∧
    List.Chain' (· ≤ ·)
      ((runEvents ⟨[], []⟩
        [.insert 1, .insert 2, .push false, .insert 3, .push true,
         .push true]).logs.map (·.last)) :=
  ⟨((c8_push_log_monotonic.1 true ⟨[1, 2], []⟩).2.2 2 (by rfl)).1,
   c8_push_log_monotonic.2 _ (by rfl)⟩

end MessPi
